import Mathlib

/-!
Verification development for the medical-kg-drug-repurposing ML pipeline
(scripts/ml/export_graph_data.py, prepare_training_data.py, train_gnn.py,
evaluate_gnn.py, generate_predictions.py and models/gnn_link_predictor.py).

The Python scripts are shallowly embedded as executable Lean functions:
* numpy fancy indexing `arr[perm]` becomes `applyPerm`;
* `np.argsort` (ascending; ties modelled by the stable reading, i.e. equal
  keys keep their original index order) becomes `argsortAsc`, and the
  ranking `np.argsort(p)[::-1]` becomes `rankingDesc`;
* the seeded random draws of `np.random` (shuffles, permutations, uniform
  choices) are passed in explicitly as permutation lists / draw streams,
  which is what a fixed seed denotes;
* Python floats are modelled as `ℚ`;
* mutation of a Python `set` becomes explicit state passing: a function
  that mutates its set argument returns the final set alongside its result.
-/

/-- Model of numpy fancy indexing `l[p]`: pick the elements of `l` at the
positions listed in `p` (out-of-range positions contribute nothing). -/
def applyPerm (p : List ℕ) (l : List α) : List α :=
  p.filterMap fun i => l[i]?

/-- Key lookup for `argsortAsc`: the probability at index `i` (0 outside). -/
def pd (p : List ℚ) (i : ℕ) : ℚ := p.getD i 0

/-- The comparison used to model `np.argsort` on the array `p`: index `i`
comes before index `j` when its key is smaller, with ties broken by the
original index order (the stable reading of argsort). -/
def rankRel (p : List ℚ) (i j : ℕ) : Prop :=
  pd p i < pd p j ∨ (pd p i = pd p j ∧ i ≤ j)

instance (p : List ℚ) : DecidableRel (rankRel p) := fun i j =>
  inferInstanceAs (Decidable (pd p i < pd p j ∨ (pd p i = pd p j ∧ i ≤ j)))

instance (p : List ℚ) : IsTotal ℕ (rankRel p) := by
  constructor
  intro i j
  rcases lt_trichotomy (pd p i) (pd p j) with h | h | h
  · exact Or.inl (Or.inl h)
  · rcases Nat.le_total i j with hij | hij
    · exact Or.inl (Or.inr ⟨h, hij⟩)
    · exact Or.inr (Or.inr ⟨h.symm, hij⟩)
  · exact Or.inr (Or.inl h)

instance (p : List ℚ) : IsTrans ℕ (rankRel p) := by
  constructor
  intro a b c hab hbc
  rcases hab with hab | ⟨hab, hab2⟩
  · rcases hbc with hbc | ⟨hbc, _⟩
    · exact Or.inl (hab.trans hbc)
    · exact Or.inl (hbc ▸ hab)
  · rcases hbc with hbc | ⟨hbc, hbc2⟩
    · exact Or.inl (hab ▸ hbc)
    · exact Or.inr ⟨hab.trans hbc, hab2.trans hbc2⟩

/-- Model of `np.argsort(p)` (ascending). Returns the list of indices
`0, …, p.length - 1` sorted by their key in `p`, equal keys keeping their
original relative order. -/
def argsortAsc (p : List ℚ) : List ℕ :=
  List.insertionSort (rankRel p) (List.range p.length)

/-- Model of `np.argsort(p)[::-1]`: the descending ranking obtained by
reversing the ascending argsort (this reverses the order of tied keys). -/
def rankingDesc (p : List ℚ) : List ℕ :=
  (argsortAsc p).reverse

namespace export_graph_data

/-- Model of `GraphDataExporter.create_node_mappings` restricted to the
`node_to_idx` map it builds: drugs first, then diseases, in input order,
with consecutive indices starting at 0. -/
def create_node_mappings (drugs diseases : List String) : List (String × ℕ) :=
  (drugs ++ diseases).enum.map fun p => (p.2, p.1)

/-- Model of `GraphDataExporter.export_edges`: each relationship row
`(drug_id, disease_id)` is looked up in `node_to_idx`; rows in which either
id is absent from the map are skipped (the code appends only when both
`dict.get` calls return a value), and no error is raised. -/
def export_edges (node_to_idx : List (String × ℕ)) (rels : List (String × String)) :
    List (ℕ × ℕ) :=
  rels.filterMap fun r =>
    match node_to_idx.lookup r.1, node_to_idx.lookup r.2 with
    | some di, some si => some (di, si)
    | _, _ => none

end export_graph_data

namespace prepare_training_data

/-- Python `int()` applied to a rational: truncation toward zero. -/
def intTrunc (q : ℚ) : ℤ := if q < 0 then ⌈q⌉ else ⌊q⌋

/-- One saved split dictionary (`train_data.pt` / `val_data.pt` /
`test_data.pt`): the shuffled edge list, the parallel label vector, and the
positive/negative counts recorded before shuffling. -/
structure SplitData where
  edges : List (ℕ × ℕ)
  labels : List ℚ
  num_pos : ℕ
  num_neg : ℕ
deriving Repr, DecidableEq

/-- The rejection-sampling loop of
`TrainingDataPreparator.generate_negative_samples`. `fuel` is the number of
attempts still allowed, `draws` the stream of raw random draws (a draw
`(a, c)` denotes the uniform choices `drug = a % numDrugs` and
`disease = numDrugs + c % numDiseases`, matching `np.random.choice` over
the two index blocks), `acc` the accepted negatives so far (reversed), and
`need` the requested count. A draw already in `ex` is rejected; an accepted
draw is added to both the accumulator and the set (the in-place
`existing_edges_set.add`). -/
def genNegAux (numDrugs numDiseases : ℕ) :
    ℕ → Finset (ℕ × ℕ) → List (ℕ × ℕ) → List (ℕ × ℕ) → ℕ →
    List (ℕ × ℕ) × Finset (ℕ × ℕ)
  | 0, ex, _, acc, _ => (acc.reverse, ex)
  | fuel + 1, ex, draws, acc, need =>
    if need ≤ acc.length then (acc.reverse, ex)
    else
      match draws with
      | [] => (acc.reverse, ex)
      | (a, c) :: rest =>
        let e : ℕ × ℕ := (a % numDrugs, numDrugs + c % numDiseases)
        if e ∈ ex then genNegAux numDrugs numDiseases fuel ex rest acc need
        else genNegAux numDrugs numDiseases fuel (insert e ex) rest (e :: acc) need

/-- Model of `TrainingDataPreparator.generate_negative_samples`: rejection
sampling with at most `num_negatives * 10` attempts. Returns the list of
accepted negatives together with the final state of the (mutated)
`existing_edges_set` argument. -/
def generate_negative_samples (numDrugs numDiseases num_negatives : ℕ)
    (existing_edges_set : Finset (ℕ × ℕ)) (draws : List (ℕ × ℕ)) :
    List (ℕ × ℕ) × Finset (ℕ × ℕ) :=
  genNegAux numDrugs numDiseases (num_negatives * 10) existing_edges_set draws [] num_negatives

/-- Model of sklearn `train_test_split(l, train_size=t, random_state=seed)`
for a float `t`: reject `t` outside the open interval (0, 1); take
`⌊t * n⌋` elements for the first part after the seeded shuffle (given here
explicitly as the permutation `shuffle`); reject when either part would be
empty, as sklearn does. -/
def train_test_split (l : List (ℕ × ℕ)) (trainSize : ℚ) (shuffle : List ℕ) :
    Except String (List (ℕ × ℕ) × List (ℕ × ℕ)) :=
  if trainSize ≤ 0 ∨ 1 ≤ trainSize then
    Except.error "train_size should be a float in the (0, 1) range"
  else
    let n := l.length
    let nTrain := (⌊trainSize * (n : ℚ)⌋).toNat
    if nTrain = 0 ∨ nTrain = n then
      Except.error "the resulting train set will be empty"
    else
      let p := applyPerm shuffle l
      Except.ok (p.take nTrain, p.drop nTrain)

/-- Model of `TrainingDataPreparator.prepare_splits`. The seeded random
state is passed in explicitly: `shuffleA`/`shuffleB` are the permutations
used by the two `train_test_split` calls, `drawsTrain`/`drawsVal`/
`drawsTest` the negative-sampling draw streams, and `permTrain`/`permVal`/
`permTest` the three `np.random.permutation` shuffles applied before
saving. Note that the function performs no validation of its ratio
arguments itself; the only rejections are those of `train_test_split`, the
division by `val_ratio + test_ratio`, and the `np.vstack` shape error on an
empty negative list. Each `generate_negative_samples` call receives
`existing_edges_set.copy()`, i.e. the unmutated global positive set. -/
def prepare_splits (numDrugs numDiseases : ℕ) (positives : List (ℕ × ℕ))
    (train_ratio val_ratio test_ratio neg_ratio : ℚ)
    (shuffleA shuffleB : List ℕ)
    (drawsTrain drawsVal drawsTest : List (ℕ × ℕ))
    (permTrain permVal permTest : List ℕ) :
    Except String (SplitData × SplitData × SplitData) := do
  let existing := positives.toFinset
  let (train_pos, temp) ← train_test_split positives train_ratio shuffleA
  if val_ratio + test_ratio = 0 then
    throw "ZeroDivisionError in val_size"
  let val_size := val_ratio / (val_ratio + test_ratio)
  let (val_pos, test_pos) ← train_test_split temp val_size shuffleB
  let numTrainNeg := (intTrunc ((train_pos.length : ℚ) * neg_ratio)).toNat
  let numValNeg := (intTrunc ((val_pos.length : ℚ) * neg_ratio)).toNat
  let numTestNeg := (intTrunc ((test_pos.length : ℚ) * neg_ratio)).toNat
  let train_neg := (generate_negative_samples numDrugs numDiseases numTrainNeg existing drawsTrain).1
  let val_neg := (generate_negative_samples numDrugs numDiseases numValNeg existing drawsVal).1
  let test_neg := (generate_negative_samples numDrugs numDiseases numTestNeg existing drawsTest).1
  if train_neg.isEmpty ∨ val_neg.isEmpty ∨ test_neg.isEmpty then
    throw "np.vstack: all the input array dimensions must match"
  let train_edges := applyPerm permTrain (train_pos ++ train_neg)
  let train_labels :=
    applyPerm permTrain (List.replicate train_pos.length (1 : ℚ) ++ List.replicate train_neg.length 0)
  let val_edges := applyPerm permVal (val_pos ++ val_neg)
  let val_labels :=
    applyPerm permVal (List.replicate val_pos.length (1 : ℚ) ++ List.replicate val_neg.length 0)
  let test_edges := applyPerm permTest (test_pos ++ test_neg)
  let test_labels :=
    applyPerm permTest (List.replicate test_pos.length (1 : ℚ) ++ List.replicate test_neg.length 0)
  pure (⟨train_edges, train_labels, train_pos.length, train_neg.length⟩,
        ⟨val_edges, val_labels, val_pos.length, val_neg.length⟩,
        ⟨test_edges, test_labels, test_pos.length, test_neg.length⟩)

end prepare_training_data

namespace gnn_link_predictor

/-- Shape of the output of `nn.Linear(_, outDim)` on a 2-d input
`[n, inDim]` (ReLU and dropout keep shapes unchanged). -/
def linearShape (outDim : ℕ) (shape : List ℕ) : List ℕ :=
  match shape with
  | [n, _] => [n, outDim]
  | s => s

/-- Shape of `tensor.squeeze()`: torch removes every dimension of size 1. -/
def squeezeShape (shape : List ℕ) : List ℕ :=
  shape.filter fun d => d != 1

namespace EdgeDecoder

/-- Shape of `EdgeDecoder.forward` on `numEdges` query edges with node
embeddings of width `embDim`: concatenate source and destination embeddings
to `[numEdges, 2 * embDim]`, apply the 3-layer MLP (hidden 32, 16, final
1), then `.squeeze()`. -/
def forwardShape (numEdges embDim : ℕ) : List ℕ :=
  squeezeShape (linearShape 1 (linearShape 16 (linearShape 32 [numEdges, 2 * embDim])))

end EdgeDecoder

namespace GNNLinkPredictor

/-- Shape of `GNNLinkPredictor.forward`: encode once over the structure
edges (producing `[numNodes, embDim]` embeddings), index the embeddings at
the query edges' endpoints, and decode. The output shape only depends on
the number of query edges and the embedding width. -/
def forwardShape (numQuery embDim : ℕ) : List ℕ :=
  EdgeDecoder.forwardShape numQuery embDim

end GNNLinkPredictor

end gnn_link_predictor

namespace train_gnn

/-- The trainer state carried across epochs: `best_val_auc` (initialised to
0), the early-stopping `patience_counter`, and the last checkpoint written
to disk, recorded as `(epoch, val_auc, val_ap)`. -/
structure TrainState where
  best_val_auc : ℚ
  patience_counter : ℕ
  checkpoint : Option (ℕ × ℚ × ℚ)
deriving Repr, DecidableEq

/-- The checkpointing / patience block at the end of one epoch of
`GNNTrainer.train`: on a strict improvement of `val_auc` over
`best_val_auc`, save a checkpoint and reset the patience counter; otherwise
increment the patience counter. -/
def checkpointStep (epoch : ℕ) (st : TrainState) (val_auc val_ap : ℚ) : TrainState :=
  if st.best_val_auc < val_auc then ⟨val_auc, 0, some (epoch, val_auc, val_ap)⟩
  else ⟨st.best_val_auc, st.patience_counter + 1, st.checkpoint⟩

/-- The epoch loop of `GNNTrainer.train`. The per-epoch validation metrics
`(val_auc, val_ap)` are supplied as a list (they are whatever the floating
point evaluation of the model produces; the loop logic does not depend on
how they arise). Returns the final state and the number of epochs actually
run; the loop breaks as soon as the patience counter reaches `patience`. -/
def trainLoop (patience : ℕ) : ℕ → TrainState → List (ℚ × ℚ) → TrainState × ℕ
  | _, st, [] => (st, 0)
  | epoch, st, v :: rest =>
    let st2 := checkpointStep epoch st v.1 v.2
    if patience ≤ st2.patience_counter then (st2, 1)
    else
      let r := trainLoop patience (epoch + 1) st2 rest
      (r.1, r.2 + 1)

/-- The initial trainer state (`best_val_auc = 0`, counter 0, nothing
saved). -/
def initState : TrainState := ⟨0, 0, none⟩

/-- `GNNTrainer.train` for at most `epochs` epochs: run the epoch loop from
the initial state over the first `epochs` validation metric pairs. -/
def trainRun (patience epochs : ℕ) (vals : List (ℚ × ℚ)) : TrainState × ℕ :=
  trainLoop patience 1 initState (vals.take epochs)

/-- The trainer state after the first `i` epochs of a run (for `i` not past
the early-stopping point this is the state the loop actually reaches). -/
def stateAt (patience epochs : ℕ) (vals : List (ℚ × ℚ)) (i : ℕ) : TrainState :=
  (trainLoop patience 1 initState ((vals.take epochs).take i)).1

/-- The message-passing structure extracted by `train_gnn.py` (line 223)
and `evaluate_gnn.py` (line 218): the leading `num_pos` columns of the
SAVED (i.e. already shuffled) train split `edge_index`. -/
def train_positive_edges (d : prepare_training_data.SplitData) : List (ℕ × ℕ) :=
  d.edges.take d.num_pos

end train_gnn

namespace evaluate_gnn

/-- Model of `ModelEvaluator.compute_precision_at_k`: rank the test
probabilities descending, and for each requested `k` not exceeding the
number of test samples record the fraction of true positives among the top
`k`; a `k` that exceeds the sample count is skipped (`continue`), not an
error. -/
def compute_precision_at_k (y_true : List ℚ) (probs : List ℚ) (k_values : List ℕ) :
    List (ℕ × ℚ) :=
  let top := rankingDesc probs
  k_values.filterMap fun k =>
    if y_true.length < k then none
    else some (k, ((top.take k).map fun i => y_true.getD i 0).sum / (k : ℚ))

end evaluate_gnn

namespace generate_predictions

/-- The positive edges of one saved split: the entries of `edge_index`
whose parallel label equals 1. -/
def positivesOf (edges : List (ℕ × ℕ)) (labels : List ℚ) : List (ℕ × ℕ) :=
  (edges.zip labels).filterMap fun p => if p.2 = 1 then some p.1 else none

/-- Model of `PredictionGenerator.get_existing_edges`: collect the positive
edges of all three saved splits and insert each in both orientations. -/
def get_existing_edges (splits : List (List (ℕ × ℕ) × List ℚ)) : Finset (ℕ × ℕ) :=
  ((splits.map fun s => ((positivesOf s.1 s.2).map fun e => [e, (e.2, e.1)]).flatten).flatten).toFinset

/-- The union of the positive edges of the given splits, as stored
(drug → disease orientation). -/
def unionPositives (splits : List (List (ℕ × ℕ) × List ℚ)) : Finset (ℕ × ℕ) :=
  ((splits.map fun s => positivesOf s.1 s.2).flatten).toFinset

/-- The candidate enumeration of `PredictionGenerator.generate_candidates`:
the cross product drug-index-major, disease-index-minor, skipping pairs
already in `existing`. -/
def all_candidates (drug_indices disease_indices : List ℕ) (existing : Finset (ℕ × ℕ)) :
    List (ℕ × ℕ) :=
  (drug_indices.map fun d =>
    (disease_indices.map fun s => (d, s)).filter fun e => decide (e ∉ existing)).flatten

/-- Model of `PredictionGenerator.generate_candidates`: score every
candidate (the trained model's sigmoid output abstracted as `score`), rank
by `np.argsort(probabilities)[::-1]`, and return the top `top_k`
candidates in ranking order. -/
def generate_candidates (drug_indices disease_indices : List ℕ)
    (existing : Finset (ℕ × ℕ)) (score : ℕ × ℕ → ℚ) (top_k : ℕ) : List (ℕ × ℕ) :=
  let cands := all_candidates drug_indices disease_indices existing
  let probs := cands.map score
  ((rankingDesc probs).take top_k).filterMap fun i => cands[i]?

end generate_predictions

/-- Extractor used only in statements: the edges of a saved split whose
parallel label is 0, i.e. the negatives as they sit in the saved file. -/
def labelZeroEdges (d : prepare_training_data.SplitData) : List (ℕ × ℕ) :=
  ((d.edges.zip d.labels).filter fun p => decide (p.2 = 0)).map Prod.fst

/-- A small concrete graph used to exercise the pipeline: 5 drugs
(indices 0–4), 4 diseases (indices 5–8), and 10 known TREATS edges. -/
def samplePositives : List (ℕ × ℕ) :=
  [(0, 5), (0, 6), (0, 7), (0, 8), (1, 5), (1, 6), (1, 7), (1, 8), (2, 5), (2, 6)]

namespace prepare_training_data

theorem genNegAux_fst_mem (nD nS : ℕ) :
    ∀ (fuel : ℕ) (ex : Finset (ℕ × ℕ)) (draws acc : List (ℕ × ℕ)) (need : ℕ)
      (S : Finset (ℕ × ℕ)), S ⊆ ex →
      ∀ x ∈ (genNegAux nD nS fuel ex draws acc need).1, x ∈ acc ∨ x ∉ S := by
  intro fuel
  induction fuel with
  | zero =>
    intro ex draws acc need S _ x hx
    simp only [genNegAux, List.mem_reverse] at hx
    exact Or.inl hx
  | succ f ih =>
    intro ex draws acc need S hS x hx
    by_cases hlen : need ≤ acc.length
    · simp only [genNegAux, if_pos hlen, List.mem_reverse] at hx
      exact Or.inl hx
    · cases draws with
      | nil =>
        simp only [genNegAux, if_neg hlen, List.mem_reverse] at hx
        exact Or.inl hx
      | cons d rest =>
        obtain ⟨a, c⟩ := d
        simp only [genNegAux, if_neg hlen] at hx
        by_cases hmem : (a % nD, nD + c % nS) ∈ ex
        · rw [if_pos hmem] at hx
          exact ih ex rest acc need S hS x hx
        · rw [if_neg hmem] at hx
          have step := ih (insert (a % nD, nD + c % nS) ex) rest
            ((a % nD, nD + c % nS) :: acc) need S
            (hS.trans (Finset.subset_insert _ _)) x hx
          rcases step with h | h
          · rcases List.mem_cons.mp h with h | h
            · subst h
              exact Or.inr fun hxS => hmem (hS hxS)
            · exact Or.inl h
          · exact Or.inr h

theorem genNegAux_nodup (nD nS : ℕ) :
    ∀ (fuel : ℕ) (ex : Finset (ℕ × ℕ)) (draws acc : List (ℕ × ℕ)) (need : ℕ),
      acc.Nodup → (∀ x ∈ acc, x ∈ ex) →
      (genNegAux nD nS fuel ex draws acc need).1.Nodup := by
  intro fuel
  induction fuel with
  | zero =>
    intro ex draws acc need hacc _
    simpa only [genNegAux, List.nodup_reverse] using hacc
  | succ f ih =>
    intro ex draws acc need hacc hsub
    by_cases hlen : need ≤ acc.length
    · simpa only [genNegAux, if_pos hlen, List.nodup_reverse] using hacc
    · cases draws with
      | nil => simpa only [genNegAux, if_neg hlen, List.nodup_reverse] using hacc
      | cons d rest =>
        obtain ⟨a, c⟩ := d
        simp only [genNegAux, if_neg hlen]
        by_cases hmem : (a % nD, nD + c % nS) ∈ ex
        · rw [if_pos hmem]
          exact ih ex rest acc need hacc hsub
        · rw [if_neg hmem]
          refine ih _ rest _ need ?_ ?_
          · refine List.nodup_cons.mpr ⟨fun hc => hmem (hsub _ hc), hacc⟩
          · intro x hx
            rcases List.mem_cons.mp hx with h | h
            · subst h; exact Finset.mem_insert_self _ _
            · exact Finset.mem_insert_of_mem (hsub x h)

theorem genNegAux_length (nD nS : ℕ) :
    ∀ (fuel : ℕ) (ex : Finset (ℕ × ℕ)) (draws acc : List (ℕ × ℕ)) (need : ℕ),
      (genNegAux nD nS fuel ex draws acc need).1.length ≤ max acc.length need := by
  intro fuel
  induction fuel with
  | zero =>
    intro ex draws acc need
    simp [genNegAux]
  | succ f ih =>
    intro ex draws acc need
    by_cases hlen : need ≤ acc.length
    · simp [genNegAux, if_pos hlen]
    · cases draws with
      | nil => simp [genNegAux, if_neg hlen]
      | cons d rest =>
        obtain ⟨a, c⟩ := d
        simp only [genNegAux, if_neg hlen]
        by_cases hmem : (a % nD, nD + c % nS) ∈ ex
        · rw [if_pos hmem]
          exact ih ex rest acc need
        · rw [if_neg hmem]
          refine (ih _ rest _ need).trans ?_
          have h1 : acc.length + 1 ≤ need := Nat.succ_le_of_lt (Nat.lt_of_not_le hlen)
          simp only [List.length_cons]
          omega

theorem genNegAux_acc_mem (nD nS : ℕ) :
    ∀ (fuel : ℕ) (ex : Finset (ℕ × ℕ)) (draws acc : List (ℕ × ℕ)) (need : ℕ),
      ∀ x ∈ acc, x ∈ (genNegAux nD nS fuel ex draws acc need).1 := by
  intro fuel
  induction fuel with
  | zero =>
    intro ex draws acc need x hx
    simpa [genNegAux] using hx
  | succ f ih =>
    intro ex draws acc need x hx
    by_cases hlen : need ≤ acc.length
    · simpa [genNegAux, if_pos hlen] using hx
    · cases draws with
      | nil => simpa [genNegAux, if_neg hlen] using hx
      | cons d rest =>
        obtain ⟨a, c⟩ := d
        simp only [genNegAux, if_neg hlen]
        by_cases hmem : (a % nD, nD + c % nS) ∈ ex
        · rw [if_pos hmem]
          exact ih ex rest acc need x hx
        · rw [if_neg hmem]
          exact ih _ rest _ need x (List.mem_cons_of_mem _ hx)

theorem genNegAux_snd (nD nS : ℕ) :
    ∀ (fuel : ℕ) (ex : Finset (ℕ × ℕ)) (draws acc : List (ℕ × ℕ)) (need : ℕ),
      (∀ x ∈ acc, x ∈ ex) →
      (genNegAux nD nS fuel ex draws acc need).2 =
        ex ∪ (genNegAux nD nS fuel ex draws acc need).1.toFinset := by
  intro fuel
  induction fuel with
  | zero =>
    intro ex draws acc need hsub
    simp only [genNegAux]
    ext y
    simp only [Finset.mem_union, List.mem_toFinset, List.mem_reverse]
    exact ⟨fun h => Or.inl h, fun h => h.elim id fun hy => hsub y hy⟩
  | succ f ih =>
    intro ex draws acc need hsub
    by_cases hlen : need ≤ acc.length
    · simp only [genNegAux, if_pos hlen]
      ext y
      simp only [Finset.mem_union, List.mem_toFinset, List.mem_reverse]
      exact ⟨fun h => Or.inl h, fun h => h.elim id fun hy => hsub y hy⟩
    · cases draws with
      | nil =>
        simp only [genNegAux, if_neg hlen]
        ext y
        simp only [Finset.mem_union, List.mem_toFinset, List.mem_reverse]
        exact ⟨fun h => Or.inl h, fun h => h.elim id fun hy => hsub y hy⟩
      | cons d rest =>
        obtain ⟨a, c⟩ := d
        simp only [genNegAux, if_neg hlen]
        by_cases hmem : (a % nD, nD + c % nS) ∈ ex
        · rw [if_pos hmem]
          exact ih ex rest acc need hsub
        · rw [if_neg hmem]
          have hsub2 : ∀ x ∈ (a % nD, nD + c % nS) :: acc,
              x ∈ insert (a % nD, nD + c % nS) ex := by
            intro x hx
            rcases List.mem_cons.mp hx with h | h
            · subst h; exact Finset.mem_insert_self _ _
            · exact Finset.mem_insert_of_mem (hsub x h)
          rw [ih _ rest _ need hsub2]
          have hin : (a % nD, nD + c % nS) ∈
              (genNegAux nD nS f (insert (a % nD, nD + c % nS) ex) rest
                ((a % nD, nD + c % nS) :: acc) need).1 :=
            genNegAux_acc_mem nD nS f _ rest _ need _ (List.mem_cons_self _ _)
          ext y
          simp only [Finset.mem_union, Finset.mem_insert, List.mem_toFinset]
          constructor
          · rintro (((h | h) | h))
            · subst h; exact Or.inr (by simpa using hin)
            · exact Or.inl h
            · exact Or.inr h
          · rintro (h | h)
            · exact Or.inl (Or.inr h)
            · exact Or.inr h

theorem genNegAux_take (nD nS : ℕ) :
    ∀ (fuel : ℕ) (ex : Finset (ℕ × ℕ)) (draws acc : List (ℕ × ℕ)) (need : ℕ),
      genNegAux nD nS fuel ex draws acc need =
        genNegAux nD nS fuel ex (draws.take fuel) acc need := by
  intro fuel
  induction fuel with
  | zero => intro ex draws acc need; simp [genNegAux]
  | succ f ih =>
    intro ex draws acc need
    by_cases hlen : need ≤ acc.length
    · simp [genNegAux, if_pos hlen]
    · cases draws with
      | nil => rfl
      | cons d rest =>
        obtain ⟨a, c⟩ := d
        simp only [List.take_succ_cons, genNegAux, if_neg hlen]
        by_cases hmem : (a % nD, nD + c % nS) ∈ ex
        · rw [if_pos hmem, if_pos hmem]
          exact ih ex rest acc need
        · rw [if_neg hmem, if_neg hmem]
          exact ih _ rest _ need

end prepare_training_data

theorem argsortAsc_perm (p : List ℚ) : (argsortAsc p).Perm (List.range p.length) :=
  List.perm_insertionSort _ _

theorem rankingDesc_perm (p : List ℚ) : (rankingDesc p).Perm (List.range p.length) :=
  (List.reverse_perm _).trans (argsortAsc_perm p)

theorem rankingDesc_nodup (p : List ℚ) : (rankingDesc p).Nodup :=
  ((rankingDesc_perm p).nodup_iff).mpr (List.nodup_range _)

theorem rankingDesc_length (p : List ℚ) : (rankingDesc p).length = p.length := by
  simpa using (rankingDesc_perm p).length_eq

theorem mem_rankingDesc (p : List ℚ) (i : ℕ) : i ∈ rankingDesc p ↔ i < p.length := by
  rw [(rankingDesc_perm p).mem_iff, List.mem_range]

theorem rankingDesc_sorted (p : List ℚ) :
    (rankingDesc p).Pairwise (fun i j => rankRel p j i) := by
  rw [rankingDesc, List.pairwise_reverse]
  exact List.sorted_insertionSort (rankRel p) (List.range p.length)

theorem rankingDesc_rel_of_lt (p : List ℚ) (a b : ℕ) (hab : a < b)
    (hb : b < (rankingDesc p).length) :
    rankRel p ((rankingDesc p).getD b 0) ((rankingDesc p).getD a 0) := by
  have ha : a < (rankingDesc p).length := hab.trans hb
  have h := (List.pairwise_iff_getElem.mp (rankingDesc_sorted p)) a b ha hb hab
  simpa only [List.getD_eq_getElem?_getD, List.getElem?_eq_getElem ha,
    List.getElem?_eq_getElem hb, Option.getD_some] using h

theorem rankingDesc_getD_ne (p : List ℚ) (a b : ℕ) (hab : a < b)
    (hb : b < (rankingDesc p).length) :
    (rankingDesc p).getD a 0 ≠ (rankingDesc p).getD b 0 := by
  have ha : a < (rankingDesc p).length := hab.trans hb
  have h := (List.pairwise_iff_getElem.mp (rankingDesc_nodup p)) a b ha hb hab
  simpa only [List.getD_eq_getElem?_getD, List.getElem?_eq_getElem ha,
    List.getElem?_eq_getElem hb, Option.getD_some] using h

namespace prepare_training_data

/-- C4: every negative sample produced by the Split Generator's rejection
sampler is absent from the global positive-edge set it is given (the
positives of all splits combined, which is what `prepare_splits` passes at
each of its three call sites), no negative is duplicated within one call's
output, at most `10 * need` draws are ever consulted, and a shortfall
simply yields a shorter list — the function is total, never an error. -/
theorem negative_samples_valid (numDrugs numDiseases need : ℕ)
    (positives : Finset (ℕ × ℕ)) (draws : List (ℕ × ℕ)) :
    ((generate_negative_samples numDrugs numDiseases need positives draws).1.toFinset ∩
        positives = ∅) ∧
    (generate_negative_samples numDrugs numDiseases need positives draws).1.Nodup ∧
    (generate_negative_samples numDrugs numDiseases need positives draws).1.length ≤ need ∧
    generate_negative_samples numDrugs numDiseases need positives draws =
      generate_negative_samples numDrugs numDiseases need positives (draws.take (need * 10)) := by
  refine ⟨?_, ?_, ?_, ?_⟩
  · rw [Finset.eq_empty_iff_forall_not_mem]
    intro x hx
    rw [Finset.mem_inter, List.mem_toFinset] at hx
    have h := genNegAux_fst_mem numDrugs numDiseases (need * 10) positives draws [] need
      positives (Finset.Subset.refl positives) x hx.1
    rcases h with h | h
    · exact absurd h (List.not_mem_nil x)
    · exact h hx.2
  · exact genNegAux_nodup numDrugs numDiseases (need * 10) positives draws [] need
      List.nodup_nil (by intro x hx; exact absurd hx (List.not_mem_nil x))
  · have h := genNegAux_length numDrugs numDiseases (need * 10) positives draws [] need
    simpa using h
  · exact genNegAux_take numDrugs numDiseases (need * 10) positives draws [] need

/-- C10: `generate_negative_samples` mutates its `existing_edges_set`
argument in place — modelled by returning the final set, which always
equals the original set united with every accepted negative. Concretely,
because `prepare_splits` hands each of its three calls a fresh copy of the
global positive set, the same unknown pair (2, 7) can be accepted both as
a train negative and as a val negative in one run. -/
theorem negative_sampler_mutates_existing_set :
    (∀ (numDrugs numDiseases need : ℕ) (ex : Finset (ℕ × ℕ)) (draws : List (ℕ × ℕ)),
      (generate_negative_samples numDrugs numDiseases need ex draws).2 =
        ex ∪ (generate_negative_samples numDrugs numDiseases need ex draws).1.toFinset) ∧
    Except.map (fun t => (labelZeroEdges t.1, labelZeroEdges t.2.1))
        (prepare_splits 5 4 samplePositives (7 / 10) (3 / 20) (3 / 20) 1
          (List.range 10) (List.range 3)
          [(2, 2), (2, 3), (3, 0), (3, 1), (3, 2), (3, 3), (4, 0)] [(2, 2)] [(4, 1), (4, 2)]
          (List.range 14) (List.range 2) (List.range 4)) =
      Except.ok ([(2, 7), (2, 8), (3, 5), (3, 6), (3, 7), (3, 8), (4, 5)], [(2, 7)]) := by
  constructor
  · intro nD nS need ex draws
    exact genNegAux_snd nD nS (need * 10) ex draws [] need
      (by intro x hx; exact absurd hx (List.not_mem_nil x))
  · with_unfolding_all rfl

end prepare_training_data

/-- C2 (amended): when two candidates receive exactly equal probabilities,
the ranking `np.argsort(probabilities)[::-1]` orders them in REVERSE
enumeration order — the later-enumerated candidate (higher drug index,
then higher disease index) comes first — because reversing a stable
ascending argsort flips the relative order of tied keys. -/
theorem tie_break_reverse_enumeration (p : List ℚ) (a b : ℕ) (hab : a < b)
    (hb : b < (rankingDesc p).length)
    (heq : pd p ((rankingDesc p).getD a 0) = pd p ((rankingDesc p).getD b 0)) :
    (rankingDesc p).getD b 0 < (rankingDesc p).getD a 0 := by
  have hrel := rankingDesc_rel_of_lt p a b hab hb
  have hne := rankingDesc_getD_ne p a b hab hb
  rcases hrel with h | ⟨h2, h3⟩
  · rw [heq] at h
    exact absurd h (lt_irrefl _)
  · exact lt_of_le_of_ne h3 (Ne.symm hne)

theorem tie_break_reverse_enumeration_witness :
    0 < 1 ∧ 1 < (rankingDesc [3 / 4, 3 / 4]).length ∧
    pd [3 / 4, 3 / 4] ((rankingDesc [3 / 4, 3 / 4]).getD 0 0) =
      pd [3 / 4, 3 / 4] ((rankingDesc [3 / 4, 3 / 4]).getD 1 0) ∧
    (rankingDesc [3 / 4, 3 / 4]).getD 1 0 < (rankingDesc [3 / 4, 3 / 4]).getD 0 0 :=
  ⟨by decide, by with_unfolding_all decide, by with_unfolding_all decide,
    tie_break_reverse_enumeration [3 / 4, 3 / 4] 0 1 (by decide) (by with_unfolding_all decide)
      (by with_unfolding_all decide)⟩

/-- C2 (counterexample): two candidates scoring probability 3/4 exactly.
The enumeration order is [(0, 2), (1, 2)], but the emitted ranking is
[(1, 2), (0, 2)] — the lower drug index does NOT come first. -/
theorem equal_probability_tie_order_cex :
    generate_predictions.generate_candidates [0, 1] [2] ∅ (fun _ => 3 / 4) 2 =
      [(1, 2), (0, 2)] ∧
    generate_predictions.generate_candidates [0, 1] [2] ∅ (fun _ => 3 / 4) 2 ≠
      [(0, 2), (1, 2)] := by
  constructor
  · with_unfolding_all decide
  · with_unfolding_all decide

namespace generate_predictions

/-- C3: every pair emitted by the Candidate Generator is absent from the
union of the positive edges of the given splits: candidates are drawn from
the cross product filtered against `get_existing_edges`, which contains
every split's positives (in both orientations). -/
theorem candidates_exclude_known_positives (splits : List (List (ℕ × ℕ) × List ℚ))
    (drug_indices disease_indices : List ℕ) (score : ℕ × ℕ → ℚ) (top_k : ℕ) :
    (generate_candidates drug_indices disease_indices (get_existing_edges splits)
        score top_k).toFinset ∩ unionPositives splits = ∅ := by
  rw [Finset.eq_empty_iff_forall_not_mem]
  intro x hx
  rw [Finset.mem_inter, List.mem_toFinset] at hx
  obtain ⟨hximg, hxpos⟩ := hx
  have hx2 : x ∈ all_candidates drug_indices disease_indices (get_existing_edges splits) := by
    simp only [generate_candidates, List.mem_filterMap] at hximg
    obtain ⟨i, _, hi⟩ := hximg
    exact List.getElem?_mem hi
  have hx3 : x ∉ get_existing_edges splits := by
    simp only [all_candidates, List.mem_flatten, List.mem_map] at hx2
    obtain ⟨l, ⟨d, _, rfl⟩, hxl⟩ := hx2
    have hf := List.of_mem_filter hxl
    simpa using hf
  apply hx3
  rw [unionPositives, List.mem_toFinset, List.mem_flatten] at hxpos
  obtain ⟨l, hl, hxl⟩ := hxpos
  rw [List.mem_map] at hl
  obtain ⟨s, hs, rfl⟩ := hl
  rw [get_existing_edges, List.mem_toFinset, List.mem_flatten]
  refine ⟨((positivesOf s.1 s.2).map fun e => [e, (e.2, e.1)]).flatten,
    List.mem_map_of_mem _ hs, ?_⟩
  rw [List.mem_flatten]
  exact ⟨[x, (x.2, x.1)], List.mem_map_of_mem _ hxl, by simp⟩

end generate_predictions

theorem listGetD_eq_getElem {α : Type} (l : List α) (d : α) (k : ℕ) (h : k < l.length) :
    l.getD k d = l[k] := by
  rw [List.getD_eq_getElem?_getD, List.getElem?_eq_getElem h]
  rfl

namespace evaluate_gnn

theorem compute_precision_at_k_keys (y p : List ℚ) (ks : List ℕ) :
    (compute_precision_at_k y p ks).map Prod.fst =
      ks.filter fun k => decide (k ≤ y.length) := by
  induction ks with
  | nil => rfl
  | cons k ks ih =>
    by_cases h : y.length < k
    · simp only [compute_precision_at_k, List.filterMap_cons, if_pos h, List.filter_cons,
        decide_eq_false (Nat.not_le.mpr h), Bool.false_eq_true, if_neg (Bool.false_ne_true)]
      exact ih
    · simp only [compute_precision_at_k, List.filterMap_cons, if_neg h, List.filter_cons,
        decide_eq_true (Nat.not_lt.mp h), if_pos rfl, List.map_cons]
      exact congrArg (List.cons k) ih

/-- C6: (a) the keys of the Precision@K result map are exactly the
requested K values that do not exceed the number of test samples — an
oversized K is omitted, not an error; (b) P@1 equals 1.0 if and only if
the top-ranked (highest-probability) test prediction is labelled as a
true positive; (c) the top-ranked index attains the maximum probability. -/
theorem precision_at_k_boundary (y p : List ℚ) (ks : List ℕ)
    (h1 : 1 ≤ y.length) (hlen : p.length = y.length) :
    ((compute_precision_at_k y p ks).map Prod.fst =
      ks.filter fun k => decide (k ≤ y.length)) ∧
    ((compute_precision_at_k y p [1]).lookup 1 = some 1 ↔
      y.getD ((rankingDesc p).getD 0 0) 0 = 1) ∧
    (∀ j, j < p.length → pd p j ≤ pd p ((rankingDesc p).getD 0 0)) := by
  refine ⟨compute_precision_at_k_keys y p ks, ?_, ?_⟩
  · have hlen0 : 0 < (rankingDesc p).length := by
      rw [rankingDesc_length, hlen]; omega
    cases htop : rankingDesc p with
    | nil => rw [htop] at hlen0; exact absurd hlen0 (lt_irrefl 0)
    | cons t ts =>
      have hv : compute_precision_at_k y p [1] = [(1, y.getD t 0)] := by
        simp only [compute_precision_at_k, htop, List.filterMap_cons,
          if_neg (Nat.not_lt.mpr h1), List.filterMap_nil, List.take_succ_cons,
          List.take_zero, List.map_cons, List.map_nil, List.sum_cons, List.sum_nil,
          add_zero, Nat.cast_one, div_one]
      rw [hv, List.lookup_cons_self]
      simp only [htop, List.getD_cons_zero]
      exact ⟨fun h => Option.some.inj h, fun h => congrArg some h⟩
  · intro j hj
    have hmem : j ∈ rankingDesc p := (mem_rankingDesc p j).mpr hj
    obtain ⟨idx, hidx, hje⟩ := List.getElem_of_mem hmem
    have hlen0 : 0 < (rankingDesc p).length := Nat.lt_of_le_of_lt (Nat.zero_le idx) hidx
    have h0 : (rankingDesc p).getD 0 0 = (rankingDesc p)[0] :=
      listGetD_eq_getElem _ 0 0 hlen0
    rcases Nat.eq_zero_or_pos idx with hz | hpos
    · subst hz
      rw [h0, hje]
    · have hrel := rankingDesc_rel_of_lt p 0 idx hpos hidx
      rw [listGetD_eq_getElem _ 0 idx hidx, hje] at hrel
      rcases hrel with h | ⟨h, _⟩
      · exact le_of_lt h
      · exact le_of_eq h

theorem precision_at_k_boundary_witness :
    1 ≤ ([0, 1, 1, 0] : List ℚ).length ∧
    (compute_precision_at_k [0, 1, 1, 0] [1, 9, 3, 2] [1]).lookup 1 = some 1 := by
  refine ⟨by decide, ?_⟩
  have h := precision_at_k_boundary [0, 1, 1, 0] [1, 9, 3, 2] [1, 2, 3, 10]
    (by decide) (by decide)
  exact (h.2.1).mpr (by decide)

end evaluate_gnn

namespace train_gnn

theorem trainLoop_count_le (patience : ℕ) :
    ∀ (vs : List (ℚ × ℚ)) (epoch : ℕ) (st : TrainState),
      (trainLoop patience epoch st vs).2 ≤ vs.length := by
  intro vs
  induction vs with
  | nil => intro epoch st; simp [trainLoop]
  | cons v rest ih =>
    intro epoch st
    simp only [trainLoop]
    by_cases h : patience ≤ (checkpointStep epoch st v.1 v.2).patience_counter
    · rw [if_pos h]
      simp [Nat.succ_le_succ (Nat.zero_le _)]
    · rw [if_neg h]
      simpa using Nat.succ_le_succ (ih (epoch + 1) (checkpointStep epoch st v.1 v.2))

theorem checkpointStep_best (epoch : ℕ) (st : TrainState) (va vp : ℚ) :
    (checkpointStep epoch st va vp).best_val_auc = max st.best_val_auc va := by
  unfold checkpointStep
  by_cases h : st.best_val_auc < va
  · rw [if_pos h]
    exact (max_eq_right (le_of_lt h)).symm
  · rw [if_neg h]
    exact (max_eq_left (le_of_not_lt h)).symm

theorem trainLoop_best (patience : ℕ) :
    ∀ (vs : List (ℚ × ℚ)) (epoch : ℕ) (st : TrainState),
      (trainLoop patience epoch st vs).1.best_val_auc =
        ((vs.take (trainLoop patience epoch st vs).2).map Prod.fst).foldl max
          st.best_val_auc := by
  intro vs
  induction vs with
  | nil => intro epoch st; simp [trainLoop]
  | cons v rest ih =>
    intro epoch st
    simp only [trainLoop]
    by_cases h : patience ≤ (checkpointStep epoch st v.1 v.2).patience_counter
    · rw [if_pos h]
      simp [checkpointStep_best]
    · rw [if_neg h]
      simp only [List.take_succ_cons, List.map_cons, List.foldl_cons]
      rw [ih (epoch + 1) (checkpointStep epoch st v.1 v.2), checkpointStep_best]

theorem checkpointStep_pat (epoch : ℕ) (st : TrainState) (va vp : ℚ) :
    (checkpointStep epoch st va vp).patience_counter = 0 ∨
      (checkpointStep epoch st va vp).patience_counter = st.patience_counter + 1 := by
  unfold checkpointStep
  by_cases h : st.best_val_auc < va
  · rw [if_pos h]; exact Or.inl rfl
  · rw [if_neg h]; exact Or.inr rfl

theorem trainLoop_early_pat (patience : ℕ) (hp : 1 ≤ patience) :
    ∀ (vs : List (ℚ × ℚ)) (epoch : ℕ) (st : TrainState),
      st.patience_counter < patience →
      (trainLoop patience epoch st vs).2 < vs.length →
      (trainLoop patience epoch st vs).1.patience_counter = patience := by
  intro vs
  induction vs with
  | nil =>
    intro epoch st _ hcount
    simp [trainLoop] at hcount
  | cons v rest ih =>
    intro epoch st hst hcount
    simp only [trainLoop] at hcount ⊢
    by_cases h : patience ≤ (checkpointStep epoch st v.1 v.2).patience_counter
    · rw [if_pos h]
      rcases checkpointStep_pat epoch st v.1 v.2 with h2 | h2
      · rw [h2] at h; omega
      · rw [h2] at h ⊢; omega
    · rw [if_neg h]
      rw [if_neg h] at hcount
      simp only [List.length_cons] at hcount
      exact ih (epoch + 1) (checkpointStep epoch st v.1 v.2) (Nat.lt_of_not_le h)
        (by omega)

theorem trainLoop_full (patience : ℕ) :
    ∀ (vs : List (ℚ × ℚ)) (epoch : ℕ) (st : TrainState),
      (trainLoop patience epoch st vs).1.patience_counter < patience →
      (trainLoop patience epoch st vs).2 = vs.length := by
  intro vs
  induction vs with
  | nil => intro epoch st _; simp [trainLoop]
  | cons v rest ih =>
    intro epoch st hpat
    simp only [trainLoop] at hpat ⊢
    by_cases h : patience ≤ (checkpointStep epoch st v.1 v.2).patience_counter
    · rw [if_pos h] at hpat
      exact absurd hpat (Nat.not_lt.mpr h)
    · rw [if_neg h] at hpat ⊢
      simp only [List.length_cons]
      exact congrArg Nat.succ (ih (epoch + 1) (checkpointStep epoch st v.1 v.2) hpat)

theorem trainLoop_take_succ (patience : ℕ) :
    ∀ (vs : List (ℚ × ℚ)) (epoch : ℕ) (st : TrainState) (i : ℕ),
      i < (trainLoop patience epoch st vs).2 →
      (trainLoop patience epoch st (vs.take (i + 1))).1 =
        checkpointStep (epoch + i) (trainLoop patience epoch st (vs.take i)).1
          (vs.getD i (0, 0)).1 (vs.getD i (0, 0)).2 := by
  intro vs
  induction vs with
  | nil =>
    intro epoch st i hi
    simp [trainLoop] at hi
  | cons v rest ih =>
    intro epoch st i hi
    simp only [trainLoop] at hi
    by_cases h : patience ≤ (checkpointStep epoch st v.1 v.2).patience_counter
    · rw [if_pos h] at hi
      have hi0 : i = 0 := by omega
      subst hi0
      simp only [List.take_succ_cons, List.take_zero, trainLoop, if_pos h,
        List.getD_cons_zero, Nat.add_zero]
    · rw [if_neg h] at hi
      cases i with
      | zero =>
        simp only [List.take_succ_cons, List.take_zero, trainLoop, if_neg h,
          List.getD_cons_zero, Nat.add_zero]
      | succ j =>
        have hj : j < (trainLoop patience (epoch + 1) (checkpointStep epoch st v.1 v.2) rest).2 := by
          simp only [] at hi
          omega
        have step := ih (epoch + 1) (checkpointStep epoch st v.1 v.2) j hj
        simp only [List.take_succ_cons, trainLoop, if_neg h, List.getD_cons_succ]
        rw [step]
        congr 1
        omega

/-- C5: in the trainer's epoch loop (run over the per-epoch validation
metrics `vals` for at most `epochs` epochs), (a) the number of epochs run
never exceeds the maximum; (b) the reported best validation AUC is the
maximum (over the initial 0) of the validation AUCs of the epochs run;
(c) the loop halts before exhausting the epochs exactly when the patience
counter has reached the configured patience; (d) conversely, if the final
patience counter is below the configured patience, every epoch ran; and
(e) each epoch's state update is exactly `checkpointStep`, which persists
a checkpoint `(epoch, val_auc, val_ap)` and resets the patience counter
precisely when the epoch's validation AUC strictly exceeds the best seen
so far, and otherwise increments the patience counter. -/
theorem trainer_checkpoint_early_stopping (patience epochs : ℕ) (vals : List (ℚ × ℚ))
    (hp : 1 ≤ patience) :
    (trainRun patience epochs vals).2 ≤ (vals.take epochs).length ∧
    (trainRun patience epochs vals).1.best_val_auc =
      (((vals.take epochs).take (trainRun patience epochs vals).2).map Prod.fst).foldl max 0 ∧
    ((trainRun patience epochs vals).2 < (vals.take epochs).length →
      (trainRun patience epochs vals).1.patience_counter = patience) ∧
    ((trainRun patience epochs vals).1.patience_counter < patience →
      (trainRun patience epochs vals).2 = (vals.take epochs).length) ∧
    (∀ i, i < (trainRun patience epochs vals).2 →
      stateAt patience epochs vals (i + 1) =
        checkpointStep (i + 1) (stateAt patience epochs vals i)
          ((vals.take epochs).getD i (0, 0)).1 ((vals.take epochs).getD i (0, 0)).2) := by
  refine ⟨trainLoop_count_le patience (vals.take epochs) 1 initState,
    trainLoop_best patience (vals.take epochs) 1 initState,
    trainLoop_early_pat patience hp (vals.take epochs) 1 initState hp,
    trainLoop_full patience (vals.take epochs) 1 initState, ?_⟩
  intro i hi
  have h := trainLoop_take_succ patience (vals.take epochs) 1 initState i hi
  unfold stateAt
  rw [h]
  congr 1
  omega

theorem trainer_checkpoint_early_stopping_witness :
    1 ≤ 2 ∧
    (trainRun 2 5 [(1/2, 1/2), (1/4, 1/4), (1/4, 1/4), (1/4, 1/4), (1/10, 1/10)]).2 = 3 ∧
    (trainRun 2 5 [(1/2, 1/2), (1/4, 1/4), (1/4, 1/4), (1/4, 1/4), (1/10, 1/10)]).1.patience_counter = 2 := by
  refine ⟨by decide, by with_unfolding_all decide, ?_⟩
  have h := trainer_checkpoint_early_stopping 2 5
    [(1/2, 1/2), (1/4, 1/4), (1/4, 1/4), (1/4, 1/4), (1/10, 1/10)] (by decide)
  exact h.2.2.1 (by with_unfolding_all decide)

end train_gnn

namespace export_graph_data

theorem create_node_mappings_lookup_lt (drugs diseases : List String) (s : String) (i : ℕ)
    (h : (create_node_mappings drugs diseases).lookup s = some i) :
    i < drugs.length + diseases.length := by
  have hmem : (s, i) ∈ create_node_mappings drugs diseases := by
    obtain ⟨l1, l2, heq, _⟩ := List.lookup_eq_some_iff.mp h
    rw [heq]
    exact List.mem_append_right _ (List.mem_cons_self _ _)
  rw [create_node_mappings, List.mem_map] at hmem
  obtain ⟨q, hq, he⟩ := hmem
  have hq1 : q.1 = i := by
    have h2 := congrArg Prod.snd he
    simpa using h2
  rw [List.mem_enum_iff_getElem?] at hq
  obtain ⟨hlt, -⟩ := List.getElem?_eq_some_iff.mp hq
  rw [hq1, List.length_append] at hlt
  exact hlt

/-- C8 (amended): a relationship whose drug id or disease id is absent
from the node map is dropped silently — `export_edges` returns a plain
list with the offending row removed, raising no error and emitting no
warning — and every index pair that does enter the produced edge list is
in range of the node-index space. -/
theorem export_edges_indices_in_range (drugs diseases : List String)
    (rels : List (String × String)) :
    (export_edges (create_node_mappings drugs diseases) rels).all
      (fun e => decide (e.1 < drugs.length + diseases.length) &&
        decide (e.2 < drugs.length + diseases.length)) = true := by
  rw [List.all_eq_true]
  intro e he
  rw [export_edges, List.mem_filterMap] at he
  obtain ⟨r, _, hr⟩ := he
  cases h1 : (create_node_mappings drugs diseases).lookup r.1 with
  | none => rw [h1] at hr; exact absurd hr (by simp)
  | some di =>
    cases h2 : (create_node_mappings drugs diseases).lookup r.2 with
    | none => rw [h1, h2] at hr; exact absurd hr (by simp)
    | some si =>
      rw [h1, h2] at hr
      have he2 : e = (di, si) := (Option.some.inj hr).symm
      subst he2
      have hd := create_node_mappings_lookup_lt drugs diseases r.1 di h1
      have hs := create_node_mappings_lookup_lt drugs diseases r.2 si h2
      simp [hd, hs]

/-- C8 (counterexample): with nodes aspirin (index 0) and headache
(index 1), the relationship table contains one valid row and one row whose
disease id `migraine` is unknown. The exporter returns normally — no
DataError, no warning value in its output — silently keeping only the
valid row; likewise an input consisting solely of an unknown-id row yields
the empty edge list rather than a failure. -/
theorem unknown_id_edge_dropped_silently :
    export_edges (create_node_mappings ["aspirin"] ["headache"])
      [("aspirin", "headache"), ("aspirin", "migraine")] = [(0, 1)] ∧
    export_edges (create_node_mappings ["aspirin"] ["headache"])
      [("aspirin", "migraine")] = [] := by
  constructor
  · decide
  · decide

end export_graph_data

namespace gnn_link_predictor

/-- C9: the full forward pass produces one logit per query edge only when
there are at least two query edges. For a single query edge the trailing
`.squeeze()` in `EdgeDecoder.forward` collapses the `[1, 1]` tensor to a
0-dimensional scalar (shape `[]`), not a length-1 vector — so the
advertised `logits[len(query_edges)]` contract is broken at
`len(query_edges) = 1`. -/
theorem single_query_edge_scalar_output :
    (∀ embDim : ℕ, GNNLinkPredictor.forwardShape 1 embDim = []) ∧
    GNNLinkPredictor.forwardShape 1 32 ≠ [1] ∧
    (∀ n embDim : ℕ, GNNLinkPredictor.forwardShape (n + 2) embDim = [n + 2]) := by
  refine ⟨fun d => rfl, by decide, ?_⟩
  intro n d
  have h : ((n + 2 : ℕ) != 1) = true := by simp
  simp [GNNLinkPredictor.forwardShape, EdgeDecoder.forwardShape, linearShape,
    squeezeShape, List.filter, h]

end gnn_link_predictor

/-- C1: a full run of the data-preparation and structure-extraction path
on the sample graph. `prepare_splits` shuffles the train split (here with
the permutation moving all negatives to the front) before saving, and the
trainer/evaluator then take the leading `num_pos` columns of the SAVED
edge_index as the "train positive" message-passing structure. The
extracted structure consists entirely of sampled negatives — pairs that
are not edges at all — and is disjoint from the positive set, so it is
not the train split's positive edge set. -/
theorem message_passing_structure_not_train_positive_set :
    Except.map (fun t => train_gnn.train_positive_edges t.1)
        (prepare_training_data.prepare_splits 5 4 samplePositives (7 / 10) (3 / 20) (3 / 20) 1
          (List.range 10) (List.range 3)
          [(2, 2), (2, 3), (3, 0), (3, 1), (3, 2), (3, 3), (4, 0)] [(2, 2)] [(4, 1), (4, 2)]
          [7, 8, 9, 10, 11, 12, 13, 0, 1, 2, 3, 4, 5, 6] (List.range 2) (List.range 4)) =
      Except.ok [(2, 7), (2, 8), (3, 5), (3, 6), (3, 7), (3, 8), (4, 5)] ∧
    ([(2, 7), (2, 8), (3, 5), (3, 6), (3, 7), (3, 8), (4, 5)] : List (ℕ × ℕ)).toFinset ∩
      samplePositives.toFinset = ∅ := by
  constructor
  · with_unfolding_all rfl
  · decide

/-- C7 (counterexample): split ratios 1/2, 1/10, 1/10 do not sum to 1, yet
`prepare_splits` runs to completion and returns splits — the configuration
is not rejected, before or after computation. -/
theorem ratios_not_summing_to_one_accepted :
    ((1 : ℚ) / 2 + 1 / 10 + 1 / 10 ≠ 1) ∧
    (prepare_training_data.prepare_splits 5 4 samplePositives (1 / 2) (1 / 10) (1 / 10) 1
        (List.range 10) (List.range 5)
        [(2, 2), (2, 3), (3, 0), (3, 1), (3, 2)] [(2, 2), (2, 3)] [(3, 0), (3, 1), (3, 2)]
        (List.range 10) (List.range 4) (List.range 6)).toOption.isSome = true := by
  constructor
  · with_unfolding_all decide
  · with_unfolding_all rfl

/-- C7 (amended): with split ratios summing to 0.7 the Split Generator
performs no validation: splitting, negative sampling and split assembly
all proceed, producing a 5/2/3 positive split of the 10 edges with
matching negatives and label vectors. -/
theorem invalid_ratio_computation_proceeds :
    Except.map (fun t => (t.1.num_pos, t.1.num_neg, t.2.1.num_pos, t.2.2.num_pos,
        t.1.edges.length, t.1.labels.length))
      (prepare_training_data.prepare_splits 5 4 samplePositives (1 / 2) (1 / 10) (1 / 10) 1
        (List.range 10) (List.range 5)
        [(2, 2), (2, 3), (3, 0), (3, 1), (3, 2)] [(2, 2), (2, 3)] [(3, 0), (3, 1), (3, 2)]
        (List.range 10) (List.range 4) (List.range 6)) =
      Except.ok (5, 5, 2, 3, 10, 10) := by
  with_unfolding_all rfl
